import Mathlib

/-!
HTTP CONNECT tunnel: request parser, handshake and relay loops.

A shallow embedding of `src/main.cpp`.  A `std::string` is a list of
characters, a `std::vector<string>` a list of strings, `string::npos` is
`none`.  The coroutines of `HttpTunnel` are functions from the outcomes of
their asynchronous primitives to what they do on the two sockets.
-/

namespace HttpTunnel

/-- A `std::string`: a sequence of `char`. -/
abbrev Str := List Char

/-- The line terminator passed to `split_string` by `FromRequestString`. -/
def CRLF : Str := "\r\n".toList

/-- The scan of `string::find`: the suffix `s` of the input starts at index `i`;
the first index at which `d` occurs, if any. -/
def find_from (d : Str) : Str → Nat → Option Nat
  | [], i => if d.isPrefixOf [] then some i else none
  | c :: t, i => if d.isPrefixOf (c :: t) then some i else find_from d t (i + 1)

/-- The call `input.find(d, pos)`: the first index `>= pos` at which `d` occurs
in `input`; `none` is `string::npos`. -/
def find (input d : Str) (pos : Nat) : Option Nat :=
  if pos > input.length then none else find_from d (input.drop pos) pos

/-- The call `input.substr(pos, len)`, for `pos <= input.size()` (the only way
`split_string` calls it). -/
def substr (input : Str) (pos len : Nat) : Str := (input.drop pos).take len

/-- The `while` loop of `split_string` together with the `if` after it, in the
state `last`, `result`.  One unit of fuel is one evaluation of the loop
condition. -/
def split_loop (input d : Str) : Nat → Nat → List Str → List Str
  | 0, _, result => result
  | fuel + 1, last, result =>
    match find input d last with
    | some next =>
      split_loop input d fuel (next + 1) (result ++ [substr input last (next - last)])
    | none => if last < input.length then result ++ [input.drop last] else result

/-- The function `split_string(input, delimiter)`.  The loop condition is
evaluated at most `input.size() + 2` times, since `last` grows at each turn
(see `split_loop_fuel`). -/
def split_string (input delimiter : Str) : List Str :=
  split_loop input delimiter (input.length + 2) 0 []

/-- The value of class `HttpConnectRequest`: `_host` and `_port`. -/
structure HttpConnectRequest where
  host : Str
  port : Str
  deriving DecidableEq, Repr

/-- How a call of `FromRequestString` ends: it returns a request, throws an
`InvalidHttpConnectRequest`, throws an `UnsupportedHttpVerb`, or reads a vector
past its end with `operator[]`, which is undefined behaviour. -/
inductive ParseResult where
  | ok (request : HttpConnectRequest)
  | InvalidHttpConnectRequest
  | UnsupportedHttpVerb
  | out_of_bounds
  deriving DecidableEq, Repr

/-- The method `HttpConnectRequest::FromRequestString`.  Every `v[i]` of the
source is `v[i]?` here, and a missing element ends the call in
`out_of_bounds`. -/
def FromRequestString (request_string : Str) : ParseResult :=
  let request_lines := split_string request_string CRLF
  if request_lines.isEmpty then ParseResult.InvalidHttpConnectRequest else
  match request_lines[0]? with
  | none => ParseResult.out_of_bounds
  | some line =>
    let connect_parameters := split_string line " ".toList
    if connect_parameters.length < 3 then ParseResult.InvalidHttpConnectRequest else
    match connect_parameters[0]? with
    | none => ParseResult.out_of_bounds
    | some verb =>
      if verb ≠ "CONNECT".toList then ParseResult.UnsupportedHttpVerb else
      match connect_parameters[1]? with
      | none => ParseResult.out_of_bounds
      | some authority =>
        let target := split_string authority ":".toList
        let DEFAULT_PORT : Str := "80".toList
        if target.length = 1 then
          match target[0]? with
          | some host => ParseResult.ok ⟨host, DEFAULT_PORT⟩
          | none => ParseResult.out_of_bounds
        else
          match target[0]?, target[1]? with
          | some host, some port => ParseResult.ok ⟨host, port⟩
          | _, _ => ParseResult.out_of_bounds

/-- The request string of `test()`. -/
def test_request : Str :=
  ("CONNECT some.domain.com:443 HTTP/1.1\r\n" ++
   "Host: some.domain.com\r\n" ++
   "User-Agent: test (unknown version) CFNetwork/1128.0.1 Darwin/19.6.0 (x86_64)\r\n" ++
   "Connection: keep-alive\r\n" ++
   "Proxy-Connection: keep-alive\r\n\r\n").toList

/-! ## The handshake coroutine -/

/-- The outcome of `async_read_some`: the bytes put at the start of `data`
(their number is the `n` of the source), or an exception (an error or the end
of the stream). -/
inductive ReadOutcome where
  | data (chunk : Str)
  | error
  deriving DecidableEq, Repr

/-- The outcome of `async_write_some`: the number of bytes taken from the
buffer offered, or an exception. -/
inductive WriteOutcome where
  | wrote (k : Nat)
  | error
  deriving DecidableEq, Repr

/-- The two streams of a relay direction: the bytes read from the source so
far and the bytes taken by the destination so far. -/
structure RelayState where
  received : Str
  delivered : Str
  deriving DecidableEq, Repr

/-- The loop of `HttpTunnel::relay_read` (client to target) over the outcomes of
its iterations: a read into `data`, then one `async_write_some` of
`asio::buffer(data, n)`, whose result is stored in `n` and not used.  An
exception ends the loop. -/
def relay_read : List (ReadOutcome × WriteOutcome) → RelayState → RelayState
  | [], st => st
  | (ReadOutcome.error, _) :: _, st => st
  | (ReadOutcome.data chunk, w) :: rest, st =>
    let n := chunk.length
    let st1 : RelayState := ⟨st.received ++ chunk, st.delivered⟩
    match w with
    | WriteOutcome.error => st1
    | WriteOutcome.wrote k =>
      relay_read rest ⟨st1.received, st1.delivered ++ (chunk.take n).take k⟩

/-- The loop of `HttpTunnel::relay_write` (target to client): the same turn, the
result of `async_write_some` being dropped. -/
def relay_write : List (ReadOutcome × WriteOutcome) → RelayState → RelayState
  | [], st => st
  | (ReadOutcome.error, _) :: _, st => st
  | (ReadOutcome.data chunk, w) :: rest, st =>
    let n := chunk.length
    let st1 : RelayState := ⟨st.received ++ chunk, st.delivered⟩
    match w with
    | WriteOutcome.error => st1
    | WriteOutcome.wrote k =>
      relay_write rest ⟨st1.received, st1.delivered ++ (chunk.take n).take k⟩

/-- The outcomes allowed to one error-free iteration: `async_read_some` gives 1
to `sizeof(data)` = 16384 bytes and `async_write_some` takes `k` of the `n`
bytes offered, `1 <= k <= n`. -/
def valid_iteration : ReadOutcome × WriteOutcome → Prop
  | (ReadOutcome.data chunk, WriteOutcome.wrote k) =>
    1 ≤ chunk.length ∧ chunk.length ≤ 16 * 1024 ∧ 1 ≤ k ∧ k ≤ chunk.length
  | _ => False

instance : DecidablePred valid_iteration := fun x =>
  match x with
  | (ReadOutcome.data _, WriteOutcome.wrote _) => by unfold valid_iteration; exact inferInstance
  | (ReadOutcome.error, _) => by unfold valid_iteration; exact inferInstance
  | (ReadOutcome.data _, WriteOutcome.error) => by unfold valid_iteration; exact inferInstance

/-! ## The search `find` -/

theorem find_from_add (d s : Str) (i k : Nat) :
    find_from d s (i + k) = (find_from d s i).map (· + k) := by
  induction s generalizing i with
  | nil => simp only [find_from]; split <;> simp
  | cons c t ih =>
    simp only [find_from]
    split
    · simp
    · rw [show i + k + 1 = (i + 1) + k by omega]; exact ih (i + 1)

theorem find_from_ge (d s : Str) (i n : Nat) (h : find_from d s i = some n) : i ≤ n := by
  induction s generalizing i with
  | nil =>
    simp only [find_from] at h
    split at h <;> simp at h
    omega
  | cons c t ih =>
    simp only [find_from] at h
    split at h
    · simp at h; omega
    · have := ih (i + 1) h; omega

theorem find_from_le (d s : Str) (i n : Nat) (h : find_from d s i = some n) :
    n + d.length ≤ i + s.length := by
  induction s generalizing i with
  | nil =>
    simp only [find_from] at h
    split at h
    · rename_i hp
      have := (List.isPrefixOf_iff_prefix.mp hp).length_le
      simp only [List.length_nil] at this ⊢
      simp at h; omega
    · simp at h
  | cons c t ih =>
    simp only [find_from] at h
    split at h
    · rename_i hp
      have := (List.isPrefixOf_iff_prefix.mp hp).length_le
      simp at h; omega
    · have := ih (i + 1) h; simp; omega

theorem find_ge (s d : Str) (j n : Nat) (h : find s d j = some n) : j ≤ n := by
  unfold find at h
  split at h
  · simp at h
  · exact find_from_ge _ _ _ _ h

theorem find_le (s d : Str) (j n : Nat) (h : find s d j = some n) :
    n + d.length ≤ s.length := by
  unfold find at h
  split at h
  · simp at h
  · have := find_from_le _ _ _ _ h
    simp at this; omega

theorem find_append_left (pre s d : Str) (j : Nat) :
    find (pre ++ s) d (pre.length + j) = (find s d j).map (· + pre.length) := by
  unfold find
  by_cases h : j > s.length
  · have : pre.length + j > (pre ++ s).length := by simp; omega
    simp [h, this]
  · have : ¬ pre.length + j > (pre ++ s).length := by simp; omega
    rw [if_neg h, if_neg this, List.drop_append, Nat.add_comm pre.length j, find_from_add]

/-! ## The loop of `split_string` -/

theorem split_loop_succ (s d : Str) (fuel last : Nat) (result : List Str) :
    split_loop s d (fuel + 1) last result =
      match find s d last with
      | some next =>
        split_loop s d fuel (next + 1) (result ++ [substr s last (next - last)])
      | none => if last < s.length then result ++ [s.drop last] else result := rfl

theorem split_loop_acc (s d : Str) (fuel j : Nat) (acc : List Str) :
    split_loop s d fuel j acc = acc ++ split_loop s d fuel j [] := by
  induction fuel generalizing j acc with
  | zero => simp [split_loop]
  | succ fuel ih =>
    simp only [split_loop]
    cases find s d j with
    | none => simp only []; split <;> simp
    | some next =>
      simp only []
      rw [ih, ih (next + 1) ([] ++ _)]
      simp

theorem substr_append_left (pre s : Str) (j n : Nat) :
    substr (pre ++ s) (pre.length + j) n = substr s j n := by
  simp [substr, List.drop_append]

theorem split_loop_append_left (pre s d : Str) (fuel j : Nat) (acc : List Str) :
    split_loop (pre ++ s) d fuel (pre.length + j) acc = acc ++ split_loop s d fuel j [] := by
  induction fuel generalizing j acc with
  | zero => simp [split_loop]
  | succ fuel ih =>
    simp only [split_loop]
    rw [find_append_left]
    cases hf : find s d j with
    | none =>
      simp only [Option.map_none']
      have : (pre.length + j < (pre ++ s).length) ↔ (j < s.length) := by simp
      by_cases hj : j < s.length
      · simp [hj, List.drop_append]
      · simp [hj]
    | some next =>
      simp only [Option.map_some']
      have hge := find_ge _ _ _ _ hf
      rw [show next + pre.length + 1 = pre.length + (next + 1) by omega, ih,
        show next + pre.length - (pre.length + j) = next - j by omega, substr_append_left,
        split_loop_acc s d fuel (next + 1) ([] ++ _)]
      simp

/-- Enough fuel: once the fuel covers the characters left, more fuel changes
nothing, so the loop of `split_string` never stops for lack of fuel. -/
theorem split_loop_fuel (s d : Str) (fuel fuel2 j : Nat) (acc : List Str)
    (h1 : s.length + 2 ≤ fuel + j) (h2 : s.length + 2 ≤ fuel2 + j) :
    split_loop s d fuel j acc = split_loop s d fuel2 j acc := by
  induction fuel generalizing fuel2 j acc with
  | zero =>
    cases fuel2 with
    | zero => rfl
    | succ f2 =>
      have : find s d j = none := by unfold find; rw [if_pos (by omega)]
      have hj : ¬ j < s.length := by omega
      simp [split_loop, this, hj]
  | succ fuel ih =>
    cases fuel2 with
    | zero =>
      have : find s d j = none := by unfold find; rw [if_pos (by omega)]
      have hj : ¬ j < s.length := by omega
      simp [split_loop, this, hj]
    | succ f2 =>
      simp only [split_loop]
      cases hf : find s d j with
      | none => rfl
      | some next =>
        simp only []
        have := find_ge _ _ _ _ hf
        exact ih f2 (next + 1) _ (by omega) (by omega)

/-- One turn of the loop: when the delimiter is first found at `n`, inside the
input, the result is the text before it followed by the split of what follows
index `n` (the source sets `last = next + 1`). -/
theorem split_string_found (s d : Str) (n : Nat) (hf : find s d 0 = some n)
    (hn : n < s.length) :
    split_string s d = s.take n :: split_string (s.drop (n + 1)) d := by
  have hs : s = s.take (n + 1) ++ s.drop (n + 1) := (List.take_append_drop _ _).symm
  have hl : (s.take (n + 1)).length = n + 1 := by simp; omega
  unfold split_string
  rw [split_loop_succ, hf]
  simp only []
  have e1 : split_loop s d (s.length + 1) (n + 1) ([] ++ [substr s 0 (n - 0)])
      = [s.take n] ++ split_loop (s.drop (n + 1)) d (s.length + 1) 0 [] := by
    have := split_loop_append_left (s.take (n + 1)) (s.drop (n + 1)) d (s.length + 1) 0
      [s.take n]
    rw [← hs, hl] at this
    simpa [substr] using this
  rw [e1]
  rw [split_loop_fuel (s.drop (n + 1)) d (s.length + 1) ((s.drop (n + 1)).length + 2) 0 []
    (by simp; omega) (by omega)]
  rfl

/-- No delimiter: the whole input is the only piece, and the empty input has
no piece. -/
theorem split_string_not_found (s d : Str) (hf : find s d 0 = none) :
    split_string s d = if s = [] then [] else [s] := by
  unfold split_string
  rw [split_loop_succ, hf]
  cases s <;> simp

/-! ## Where the delimiter is found -/

theorem find_zero (s d : Str) : find s d 0 = find_from d s 0 := by
  simp [find]

theorem find_from_none_of_absent (d s : Str) (i : Nat) (h : ¬ d <:+: s) :
    find_from d s i = none := by
  induction s generalizing i with
  | nil =>
    simp only [find_from]
    split
    · rename_i hp
      exact absurd (List.isPrefixOf_iff_prefix.mp hp).isInfix h
    · rfl
  | cons c t ih =>
    simp only [find_from]
    split
    · rename_i hp
      exact absurd (List.isPrefixOf_iff_prefix.mp hp).isInfix h
    · exact ih (i + 1) (fun hi => h (hi.trans (List.suffix_cons c t).isInfix))

theorem find_none_of_absent (d s : Str) (h : ¬ d <:+: s) : find s d 0 = none := by
  rw [find_zero]; exact find_from_none_of_absent d s 0 h

theorem not_infix_singleton (c : Char) (s : Str) (h : c ∉ s) : ¬ [c] <:+: s := by
  intro hi
  exact h (hi.subset (List.mem_singleton_self c))

theorem not_crlf_of_not_mem (s : Str) (h : '\r' ∉ s) : ¬ CRLF <:+: s := by
  intro hi
  exact h (hi.subset (by simp [CRLF]))

theorem find_from_char (c : Char) (p rest : Str) (i : Nat) (h : c ∉ p) :
    find_from [c] (p ++ c :: rest) i = some (i + p.length) := by
  induction p generalizing i with
  | nil => simp [find_from, List.isPrefixOf]
  | cons a t ih =>
    have ha : a ≠ c := fun e => h (by simp [e])
    have ht : c ∉ t := fun e => h (by simp [e])
    have hc : ¬ (c = a) := fun e => ha e.symm
    have hp : List.isPrefixOf [c] (a :: (t ++ c :: rest)) = false := by
      simp [List.isPrefixOf, hc]
    rw [List.cons_append, find_from, hp, ih (i + 1) ht]
    simp; omega

theorem find_from_crlf (L rest : Str) (i : Nat) (h : ¬ CRLF <:+: L) :
    find_from CRLF (L ++ '\r' :: '\n' :: rest) i = some (i + L.length) := by
  induction L generalizing i with
  | nil => simp [find_from, CRLF, List.isPrefixOf]
  | cons a t ih =>
    have ht : ¬ CRLF <:+: t := fun hi => h (hi.trans (List.suffix_cons a t).isInfix)
    have hp : (CRLF.isPrefixOf (a :: t ++ '\r' :: '\n' :: rest)) = false := by
      cases t with
      | nil => simp [CRLF, List.isPrefixOf]
      | cons b u =>
        by_contra hc
        simp only [Bool.not_eq_false] at hc
        apply h
        have : CRLF <+: a :: b :: u := by
          simp only [CRLF, List.cons_append, List.isPrefixOf, Bool.and_eq_true, beq_iff_eq,
            String.toList] at hc
          obtain ⟨h1, h2, _⟩ := hc
          subst h1; subst h2
          exact ⟨u, rfl⟩
        exact this.isInfix
    rw [List.cons_append] at hp ⊢
    rw [find_from, hp, ih (i + 1) ht]
    simp; omega

/-! ## What `split_string` returns -/

/-- Splitting on one character: the text before its first occurrence, then the
split of the text after it. -/
theorem split_string_char_cons (c : Char) (p rest : Str) (h : c ∉ p) :
    split_string (p ++ c :: rest) [c] = p :: split_string rest [c] := by
  have hf : find (p ++ c :: rest) [c] 0 = some p.length := by
    rw [find_zero, find_from_char c p rest 0 h]; simp
  rw [split_string_found _ _ _ hf (by simp)]
  simp

/-- Splitting a text without the character: one piece, none when it is empty. -/
theorem split_string_char_none (c : Char) (p : Str) (h : c ∉ p) :
    split_string p [c] = if p = [] then [] else [p] :=
  split_string_not_found p [c] (find_none_of_absent _ _ (not_infix_singleton c p h))

/-- Splitting on CRLF: the first piece is the text before the first CRLF, and
the scan goes on one character later, at the `'\n'` of that CRLF. -/
theorem split_string_crlf_cons (L rest : Str) (h : ¬ CRLF <:+: L) :
    split_string (L ++ '\r' :: '\n' :: rest) CRLF = L :: split_string ('\n' :: rest) CRLF := by
  have hf : find (L ++ '\r' :: '\n' :: rest) CRLF 0 = some L.length := by
    rw [find_zero, find_from_crlf L rest 0 h]; simp
  rw [split_string_found _ _ _ hf (by simp)]
  simp

theorem split_string_crlf_none (s : Str) (h : ¬ CRLF <:+: s) :
    split_string s CRLF = if s = [] then [] else [s] :=
  split_string_not_found s CRLF (find_none_of_absent _ _ h)

/-! ## The parser on a request line -/

/-- The text after the first CRLF plays no part, and neither does the CRLF. -/
theorem FromRequestString_line (L rest : Str) (h : ¬ CRLF <:+: L) :
    FromRequestString (L ++ CRLF ++ rest) = FromRequestString L := by
  have e : L ++ CRLF ++ rest = L ++ '\r' :: '\n' :: rest := by simp [CRLF]
  rw [e]
  unfold FromRequestString
  rw [split_string_crlf_cons L rest h, split_string_crlf_none L h]
  by_cases hL : L = []
  · subst hL
    have : split_string [] [' '] = [] := by decide
    simp [this]
  · simp [hL]

/-- The three tokens of a request line `m a v`. -/
theorem split_string_three (m a v : Str) (hm : ' ' ∉ m) (ha : ' ' ∉ a) (hv : ' ' ∉ v)
    (hv0 : v ≠ []) :
    split_string (m ++ ' ' :: (a ++ ' ' :: v)) " ".toList = [m, a, v] := by
  show split_string (m ++ ' ' :: (a ++ ' ' :: v)) [' '] = [m, a, v]
  rw [split_string_char_cons _ _ _ hm, split_string_char_cons _ _ _ ha,
    split_string_char_none _ _ hv, if_neg hv0]

/-- The parser on a line of three tokens: the verb is checked, then the
authority is split on the colon. -/
theorem FromRequestString_three (m a v : Str) (hm : ' ' ∉ m) (ha : ' ' ∉ a) (hv : ' ' ∉ v)
    (hv0 : v ≠ []) (hc : ¬ CRLF <:+: (m ++ ' ' :: (a ++ ' ' :: v))) :
    FromRequestString (m ++ ' ' :: (a ++ ' ' :: v)) =
      if m ≠ "CONNECT".toList then ParseResult.UnsupportedHttpVerb else
        if (split_string a ":".toList).length = 1 then
          match (split_string a ":".toList)[0]? with
          | some host => ParseResult.ok ⟨host, "80".toList⟩
          | none => ParseResult.out_of_bounds
        else
          match (split_string a ":".toList)[0]?, (split_string a ":".toList)[1]? with
          | some host, some port => ParseResult.ok ⟨host, port⟩
          | _, _ => ParseResult.out_of_bounds := by
  unfold FromRequestString
  rw [split_string_crlf_none _ hc]
  have hne : m ++ ' ' :: (a ++ ' ' :: v) ≠ [] := by simp
  rw [if_neg hne]
  simp only [List.isEmpty_cons, Bool.false_eq_true, if_false, List.getElem?_cons_zero]
  rw [split_string_three m a v hm ha hv hv0]
  simp

theorem length_split_string_char_le (c : Char) (s p : Str) (hp : c ∉ p) :
    (split_string (p ++ s) [c]).length ≤ s.count c + 1 := by
  induction s generalizing p with
  | nil =>
    rw [List.append_nil, split_string_char_none c p hp]
    split <;> simp
  | cons a t ih =>
    by_cases hac : a = c
    · subst hac
      rw [split_string_char_cons a p t hp]
      have := ih [] (by simp)
      simp at this ⊢
      exact this
    · have hp2 : c ∉ p ++ [a] := by
        simp only [List.mem_append, List.mem_singleton, not_or]
        exact ⟨hp, fun e => hac e.symm⟩
      have := ih (p ++ [a]) hp2
      rw [List.append_assoc, List.singleton_append] at this
      rw [List.count_cons_of_ne (fun e => hac e.symm)]
      exact this

/-- On an input without CRLF the parser fails with `InvalidHttpConnectRequest`
exactly when the input has fewer than three tokens. -/
theorem FromRequestString_invalid_iff (s : Str) (h : ¬ CRLF <:+: s) :
    FromRequestString s = ParseResult.InvalidHttpConnectRequest ↔
      (split_string s " ".toList).length < 3 := by
  unfold FromRequestString
  rw [split_string_crlf_none s h]
  by_cases hs : s = []
  · subst hs
    have : split_string [] [' '] = [] := by decide
    simp [this]
  · simp only [if_neg hs, List.isEmpty_cons, Bool.false_eq_true, if_false,
      List.getElem?_cons_zero]
    constructor
    · intro hr
      by_contra hlt
      rw [if_neg hlt] at hr
      repeat' split at hr
      all_goals simp at hr
    · intro hlt
      rw [if_pos hlt]

/-- Claim C1: for every host `h` and non-empty port `p` without space, colon, CR
or LF, and every trailing text, the parser returns host `h` and port `p` on
`CONNECT h:p HTTP/1.1` followed by CRLF and the trailing text. -/
theorem FromRequestString_host_port (h p rest : Str) (hp : p ≠ [])
    (h1 : ' ' ∉ h) (h2 : ':' ∉ h) (h3 : '\r' ∉ h) (_h4 : '\n' ∉ h)
    (p1 : ' ' ∉ p) (p2 : ':' ∉ p) (p3 : '\r' ∉ p) (_p4 : '\n' ∉ p) :
    FromRequestString
      ("CONNECT ".toList ++ h ++ ":".toList ++ p ++ " HTTP/1.1\r\n".toList ++ rest)
      = ParseResult.ok ⟨h, p⟩ := by
  have e : "CONNECT ".toList ++ h ++ ":".toList ++ p ++ " HTTP/1.1\r\n".toList ++ rest
      = ("CONNECT".toList ++ ' ' :: ((h ++ ':' :: p) ++ ' ' :: "HTTP/1.1".toList))
          ++ CRLF ++ rest := by simp [CRLF]
  have hcr : '\r' ∉ "CONNECT".toList ++ ' ' :: ((h ++ ':' :: p) ++ ' ' :: "HTTP/1.1".toList) := by
    simp [h3, p3]
  have hsp : ' ' ∉ h ++ ':' :: p := by simp [h1, p1]
  rw [e, FromRequestString_line _ _ (not_crlf_of_not_mem _ hcr),
    FromRequestString_three _ _ _ (by decide) hsp (by decide) (by decide)
      (not_crlf_of_not_mem _ hcr)]
  have hs : split_string (h ++ ':' :: p) ":".toList = [h, p] := by
    show split_string (h ++ ':' :: p) [':'] = [h, p]
    rw [split_string_char_cons _ _ _ h2, split_string_char_none _ _ p2, if_neg hp]
  rw [hs]
  simp

theorem FromRequestString_host_port_witness :
    ("443".toList ≠ [] ∧
      ' ' ∉ "some.domain.com".toList ∧ ':' ∉ "some.domain.com".toList ∧
      '\r' ∉ "some.domain.com".toList ∧ '\n' ∉ "some.domain.com".toList ∧
      ' ' ∉ "443".toList ∧ ':' ∉ "443".toList ∧ '\r' ∉ "443".toList ∧ '\n' ∉ "443".toList) ∧
    FromRequestString test_request
      = ParseResult.ok ⟨"some.domain.com".toList, "443".toList⟩ :=
  ⟨by decide, FromRequestString_host_port "some.domain.com".toList "443".toList
    ("Host: some.domain.com\r\n" ++
     "User-Agent: test (unknown version) CFNetwork/1128.0.1 Darwin/19.6.0 (x86_64)\r\n" ++
     "Connection: keep-alive\r\n" ++
     "Proxy-Connection: keep-alive\r\n\r\n").toList
    (by decide) (by decide) (by decide) (by decide) (by decide) (by decide) (by decide)
    (by decide) (by decide)⟩

/-- Claim C3: for every non-empty host `h` without space, colon, CR or LF, and
every trailing text, the parser returns host `h` and the default port `80` on
`CONNECT h HTTP/1.1` followed by CRLF and the trailing text. -/
theorem FromRequestString_default_port (h rest : Str) (h0 : h ≠ [])
    (h1 : ' ' ∉ h) (h2 : ':' ∉ h) (h3 : '\r' ∉ h) (_h4 : '\n' ∉ h) :
    FromRequestString ("CONNECT ".toList ++ h ++ " HTTP/1.1\r\n".toList ++ rest)
      = ParseResult.ok ⟨h, "80".toList⟩ := by
  have e : "CONNECT ".toList ++ h ++ " HTTP/1.1\r\n".toList ++ rest
      = ("CONNECT".toList ++ ' ' :: (h ++ ' ' :: "HTTP/1.1".toList)) ++ CRLF ++ rest := by
    simp [CRLF]
  have hcr : '\r' ∉ "CONNECT".toList ++ ' ' :: (h ++ ' ' :: "HTTP/1.1".toList) := by
    simp [h3]
  rw [e, FromRequestString_line _ _ (not_crlf_of_not_mem _ hcr),
    FromRequestString_three _ _ _ (by decide) h1 (by decide) (by decide)
      (not_crlf_of_not_mem _ hcr)]
  have hs : split_string h ":".toList = [h] := by
    show split_string h [':'] = [h]
    rw [split_string_char_none _ _ h2, if_neg h0]
  rw [hs]
  simp

theorem FromRequestString_default_port_witness :
    ("example.com".toList ≠ [] ∧
      ' ' ∉ "example.com".toList ∧ ':' ∉ "example.com".toList ∧
      '\r' ∉ "example.com".toList ∧ '\n' ∉ "example.com".toList) ∧
    FromRequestString "CONNECT example.com HTTP/1.1\r\n\r\n".toList
      = ParseResult.ok ⟨"example.com".toList, "80".toList⟩ :=
  ⟨by decide, FromRequestString_default_port "example.com".toList "\r\n".toList
    (by decide) (by decide) (by decide) (by decide) (by decide)⟩

/-- Claim C6: for every method token `m` other than the exact string `CONNECT`
and every non-empty authority `a` and version `v`, none of them with a space,
CR or LF, the parser fails with `UnsupportedHttpVerb` on `m a v` followed by
CRLF and any trailing text. -/
theorem FromRequestString_unsupported_verb (m a v rest : Str)
    (hm : m ≠ "CONNECT".toList) (_ha0 : a ≠ []) (hv0 : v ≠ [])
    (m1 : ' ' ∉ m) (m2 : '\r' ∉ m) (_m3 : '\n' ∉ m)
    (a1 : ' ' ∉ a) (a2 : '\r' ∉ a) (_a3 : '\n' ∉ a)
    (v1 : ' ' ∉ v) (v2 : '\r' ∉ v) (_v3 : '\n' ∉ v) :
    FromRequestString (m ++ " ".toList ++ a ++ " ".toList ++ v ++ "\r\n".toList ++ rest)
      = ParseResult.UnsupportedHttpVerb := by
  have e : m ++ " ".toList ++ a ++ " ".toList ++ v ++ "\r\n".toList ++ rest
      = (m ++ ' ' :: (a ++ ' ' :: v)) ++ CRLF ++ rest := by simp [CRLF]
  have hcr : '\r' ∉ m ++ ' ' :: (a ++ ' ' :: v) := by simp [m2, a2, v2]
  rw [e, FromRequestString_line _ _ (not_crlf_of_not_mem _ hcr),
    FromRequestString_three _ _ _ m1 a1 v1 hv0 (not_crlf_of_not_mem _ hcr), if_pos hm]

theorem FromRequestString_unsupported_verb_witness :
    ("GET".toList ≠ "CONNECT".toList ∧ "/".toList ≠ [] ∧ "HTTP/1.1".toList ≠ [] ∧
      ' ' ∉ "GET".toList ∧ '\r' ∉ "GET".toList ∧ '\n' ∉ "GET".toList ∧
      ' ' ∉ "/".toList ∧ '\r' ∉ "/".toList ∧ '\n' ∉ "/".toList ∧
      ' ' ∉ "HTTP/1.1".toList ∧ '\r' ∉ "HTTP/1.1".toList ∧ '\n' ∉ "HTTP/1.1".toList) ∧
    FromRequestString "GET / HTTP/1.1\r\n\r\n".toList = ParseResult.UnsupportedHttpVerb :=
  ⟨by decide, FromRequestString_unsupported_verb "GET".toList "/".toList "HTTP/1.1".toList
    "\r\n".toList (by decide) (by decide) (by decide) (by decide) (by decide) (by decide)
    (by decide) (by decide) (by decide) (by decide) (by decide) (by decide)⟩

/-- Claim C7: when the first line `L` (the text before the first CRLF) splits on
single spaces into fewer than three tokens, and so whenever it has fewer than
two spaces, the parser fails with `InvalidHttpConnectRequest` whatever the
method token is: the token count is checked before the method. -/
theorem FromRequestString_few_tokens (L rest : Str) (hL : ¬ CRLF <:+: L)
    (ht : (split_string L " ".toList).length < 3 ∨ L.count ' ' < 2) :
    FromRequestString (L ++ CRLF ++ rest) = ParseResult.InvalidHttpConnectRequest := by
  rw [FromRequestString_line L rest hL, FromRequestString_invalid_iff L hL]
  rcases ht with ht | ht
  · exact ht
  · have := length_split_string_char_le ' ' L [] (by simp)
    rw [List.nil_append] at this
    show (split_string L [' ']).length < 3
    omega

theorem FromRequestString_few_tokens_witness :
    (¬ CRLF <:+: "CONNECT".toList ∧
      ((split_string "CONNECT".toList " ".toList).length < 3 ∨
        "CONNECT".toList.count ' ' < 2)) ∧
    FromRequestString ("CONNECT".toList ++ CRLF ++ "\r\n".toList)
      = ParseResult.InvalidHttpConnectRequest :=
  ⟨by decide, FromRequestString_few_tokens "CONNECT".toList "\r\n".toList (by decide)
    (by decide)⟩

/-- Claim C9: the parser looks at the request line only: for a line `L` without
CRLF, the outcome on `L`, CRLF and a trailing text does not depend on the
trailing text. -/
theorem FromRequestString_ignores_rest (L r1 r2 : Str) (hL : ¬ CRLF <:+: L) :
    FromRequestString (L ++ CRLF ++ r1) = FromRequestString (L ++ CRLF ++ r2) := by
  rw [FromRequestString_line L r1 hL, FromRequestString_line L r2 hL]

theorem FromRequestString_ignores_rest_witness :
    ¬ CRLF <:+: "CONNECT a:1 HTTP/1.1".toList ∧
    FromRequestString ("CONNECT a:1 HTTP/1.1".toList ++ CRLF ++ "\r\n".toList)
      = FromRequestString ("CONNECT a:1 HTTP/1.1".toList ++ CRLF ++ "Host: b\r\n\r\n".toList) :=
  ⟨by decide, FromRequestString_ignores_rest _ _ _ (by decide)⟩

/-! ## Tokens, counted on the input -/

theorem takeWhile_dropWhile_first (c : Char) (p rest : Str) (h : c ∉ p) :
    (p ++ c :: rest).takeWhile (fun ch => ch != c) = p ∧
    (p ++ c :: rest).dropWhile (fun ch => ch != c) = c :: rest := by
  have hp : ∀ a ∈ p, (fun ch => ch != c) a = true := by
    intro a ha
    have : a ≠ c := fun e => h (e ▸ ha)
    simpa using this
  constructor
  · rw [List.takeWhile_append_of_pos hp]; simp
  · rw [List.dropWhile_append_of_pos hp]; simp

theorem takeWhile_dropWhile_absent (c : Char) (s : Str) (h : c ∉ s) :
    s.takeWhile (fun ch => ch != c) = s ∧ s.dropWhile (fun ch => ch != c) = [] := by
  have hp : ∀ a ∈ s, (fun ch => ch != c) a = true := by
    intro a ha
    have : a ≠ c := fun e => h (e ▸ ha)
    simpa using this
  constructor
  · have := @List.takeWhile_append_of_pos _ _ s [] hp
    simpa using this
  · have := @List.dropWhile_append_of_pos _ _ s [] hp
    simpa using this

/-- The first piece of a non-empty text is the text before the first delimiter
character, and the other pieces are the split of the text after it. -/
theorem split_string_char_head (c : Char) (s : Str) (hs : s ≠ []) :
    split_string s [c] = s.takeWhile (fun ch => ch != c) ::
      split_string ((s.dropWhile (fun ch => ch != c)).drop 1) [c] := by
  by_cases hc : c ∈ s
  · obtain ⟨p, rest, rfl, hp⟩ := List.eq_append_cons_of_mem hc
    obtain ⟨e1, e2⟩ := takeWhile_dropWhile_first c p rest hp
    rw [e1, e2, split_string_char_cons c p rest hp]
    simp
  · obtain ⟨e1, e2⟩ := takeWhile_dropWhile_absent c s hc
    rw [e1, e2, split_string_char_none c s hc, if_neg hs]
    have : split_string [] [c] = [] := by
      rw [split_string_char_none c [] (by simp)]; simp
    simp [this]

theorem length_split_string_char_last (c : Char) (s p : Str) (hp : c ∉ p)
    (hl : (p ++ s).getLast? = some c) :
    (split_string (p ++ s) [c]).length ≤ s.count c := by
  induction s generalizing p with
  | nil =>
    rw [List.append_nil] at hl
    exact absurd (List.mem_of_getLast?_eq_some hl) hp
  | cons a t ih =>
    by_cases hac : a = c
    · subst hac
      rw [split_string_char_cons a p t hp]
      by_cases ht : t = []
      · subst ht
        have : split_string [] [a] = [] := by
          rw [split_string_char_none a [] (by simp)]; simp
        simp [this]
      · have hl2 : ([] ++ t).getLast? = some a := by
          rw [List.getLast?_append_cons] at hl
          cases t with
          | nil => exact absurd rfl ht
          | cons b u =>
            rw [List.getLast?_cons_cons] at hl
            simpa using hl
        have := ih [] (by simp) hl2
        simp at this ⊢
        exact this
    · have hp2 : c ∉ p ++ [a] := by
        simp only [List.mem_append, List.mem_singleton, not_or]
        exact ⟨hp, fun e => hac e.symm⟩
      have hl2 : (p ++ [a] ++ t).getLast? = some c := by
        rw [List.append_assoc, List.singleton_append]; exact hl
      have := ih (p ++ [a]) hp2 hl2
      rw [List.append_assoc, List.singleton_append] at this
      rw [List.count_cons_of_ne (fun e => hac e.symm)]
      exact this

/-- Claim C5, as stated, fails: the unterminated line
`CONNECT example.com:443 HTTP/1.1` has no CRLF and is accepted. -/
theorem unterminated_line_accepted :
    ¬ CRLF <:+: "CONNECT example.com:443 HTTP/1.1".toList ∧
    FromRequestString "CONNECT example.com:443 HTTP/1.1".toList
      = ParseResult.ok ⟨"example.com".toList, "443".toList⟩ := by
  decide

/-- The parser on a line of at least three tokens. -/
theorem FromRequestString_tokens (s m a x : Str) (xs : List Str) (hc : ¬ CRLF <:+: s)
    (ht : split_string s " ".toList = m :: a :: x :: xs) :
    FromRequestString s =
      if m ≠ "CONNECT".toList then ParseResult.UnsupportedHttpVerb else
        if (split_string a ":".toList).length = 1 then
          match (split_string a ":".toList)[0]? with
          | some host => ParseResult.ok ⟨host, "80".toList⟩
          | none => ParseResult.out_of_bounds
        else
          match (split_string a ":".toList)[0]?, (split_string a ":".toList)[1]? with
          | some host, some port => ParseResult.ok ⟨host, port⟩
          | _, _ => ParseResult.out_of_bounds := by
  have hs : s ≠ [] := by
    intro e
    subst e
    have : split_string [] " ".toList = [] := by decide
    rw [this] at ht
    exact absurd ht (by simp)
  unfold FromRequestString
  rw [split_string_crlf_none _ hc, if_neg hs]
  simp only [List.isEmpty_cons, Bool.false_eq_true, if_false, List.getElem?_cons_zero]
  rw [ht]
  simp

/-- The target read from a non-empty authority: the host is the text before
the first colon; the port is the text between the first and the second colon,
or `80` when nothing follows the first colon or there is no colon. -/
theorem target_of_authority (a : Str) (ha : a ≠ []) :
    (if (split_string a ":".toList).length = 1 then
        match (split_string a ":".toList)[0]? with
        | some host => ParseResult.ok ⟨host, "80".toList⟩
        | none => ParseResult.out_of_bounds
      else
        match (split_string a ":".toList)[0]?, (split_string a ":".toList)[1]? with
        | some host, some port => ParseResult.ok ⟨host, port⟩
        | _, _ => ParseResult.out_of_bounds) =
    ParseResult.ok
      ⟨a.takeWhile (fun ch => ch != ':'),
       if (a.dropWhile (fun ch => ch != ':')).drop 1 = [] then "80".toList
       else ((a.dropWhile (fun ch => ch != ':')).drop 1).takeWhile (fun ch => ch != ':')⟩ := by
  have e : split_string a ":".toList = a.takeWhile (fun ch => ch != ':') ::
      split_string ((a.dropWhile (fun ch => ch != ':')).drop 1) [':'] :=
    split_string_char_head ':' a ha
  rw [e]
  by_cases hq : (a.dropWhile (fun ch => ch != ':')).drop 1 = []
  · have : split_string [] [':'] = [] := by decide
    rw [hq, this]
    simp
  · rw [split_string_char_head ':' _ hq, if_neg hq]
    simp

/-- Claim C5, amended: an input without CRLF is parsed as the request line, with
the outcome of the same input followed by CRLF.  It fails with
`InvalidHttpConnectRequest` when it has fewer than three tokens: fewer than two
spaces, or two spaces of which the second ends the input.  On `m a t` with `m`
and `a` free of spaces and `t` non-empty it does not: it fails with
`UnsupportedHttpVerb` when `m` is not `CONNECT`, and for `CONNECT` and a
non-empty authority `a` it returns the host and port read from `a`. -/
theorem FromRequestString_no_crlf (s : Str) (h : ¬ CRLF <:+: s) :
    FromRequestString s = FromRequestString (s ++ CRLF) ∧
    ((s.count ' ' < 2 ∨ (s.count ' ' = 2 ∧ s.getLast? = some ' ')) →
      FromRequestString s = ParseResult.InvalidHttpConnectRequest) ∧
    (∀ m a t : Str, s = m ++ ' ' :: (a ++ ' ' :: t) → ' ' ∉ m → ' ' ∉ a → t ≠ [] →
      (m ≠ "CONNECT".toList → FromRequestString s = ParseResult.UnsupportedHttpVerb) ∧
      (m = "CONNECT".toList → a ≠ [] →
        FromRequestString s = ParseResult.ok
          ⟨a.takeWhile (fun ch => ch != ':'),
           if (a.dropWhile (fun ch => ch != ':')).drop 1 = [] then "80".toList
           else ((a.dropWhile (fun ch => ch != ':')).drop 1).takeWhile
             (fun ch => ch != ':')⟩)) := by
  refine ⟨?_, ?_, ?_⟩
  · have := FromRequestString_line s [] h
    rw [List.append_nil] at this
    exact this.symm
  · intro hc
    rw [FromRequestString_invalid_iff s h]
    show (split_string s [' ']).length < 3
    rcases hc with hc | ⟨hc, hl⟩
    · have := length_split_string_char_le ' ' s [] (by simp)
      rw [List.nil_append] at this
      omega
    · have := length_split_string_char_last ' ' s [] (by simp) (by simpa using hl)
      rw [List.nil_append] at this
      omega
  · intro m a t hs hm ha ht
    have hsplit : split_string s " ".toList
        = m :: a :: t.takeWhile (fun ch => ch != ' ') ::
            split_string ((t.dropWhile (fun ch => ch != ' ')).drop 1) [' '] := by
      show split_string s [' '] = _
      rw [hs, split_string_char_cons _ _ _ hm, split_string_char_cons _ _ _ ha,
        split_string_char_head ' ' t ht]
    rw [FromRequestString_tokens s m a _ _ h hsplit]
    constructor
    · intro hne
      rw [if_pos hne]
    · intro hm2 ha2
      rw [if_neg (not_not.mpr hm2)]
      exact target_of_authority a ha2

theorem FromRequestString_no_crlf_witness :
    ¬ CRLF <:+: "CONNECT example.com HTTP/1.1".toList ∧
    "CONNECT example.com HTTP/1.1".toList
      = "CONNECT".toList ++ ' ' :: ("example.com".toList ++ ' ' :: "HTTP/1.1".toList) ∧
    ' ' ∉ "CONNECT".toList ∧ ' ' ∉ "example.com".toList ∧ "HTTP/1.1".toList ≠ [] ∧
    "example.com".toList ≠ [] ∧
    FromRequestString "CONNECT example.com HTTP/1.1".toList
      = ParseResult.ok ⟨"example.com".toList, "80".toList⟩ :=
  ⟨by decide, by decide, by decide, by decide, by decide, by decide,
    ((FromRequestString_no_crlf "CONNECT example.com HTTP/1.1".toList (by decide)).2.2
      "CONNECT".toList "example.com".toList "HTTP/1.1".toList (by decide) (by decide)
      (by decide) (by decide)).2 rfl (by decide)⟩

/-- Claim C4: on `CONNECT  HTTP/1.1` (two spaces, an empty authority token)
followed by CRLF, the split of the authority on the colon is empty and the
parser reads `target[0]` past the end of the vector. -/
theorem FromRequestString_empty_authority :
    split_string "".toList ":".toList = [] ∧
    FromRequestString "CONNECT  HTTP/1.1\r\n".toList = ParseResult.out_of_bounds := by
  decide

/-- Claim C10: on CRLF the scan resumes one character after the start of the
delimiter, so every piece after the first keeps the `'\n'` of the CRLF before
it: the header lines of the request of `test()` come back with a leading
`'\n'`. -/
theorem split_string_crlf_test_request :
    split_string "a\r\nb".toList CRLF = ["a".toList, "\nb".toList] ∧
    split_string test_request CRLF =
      ["CONNECT some.domain.com:443 HTTP/1.1".toList,
       "\nHost: some.domain.com".toList,
       "\nUser-Agent: test (unknown version) CFNetwork/1128.0.1 Darwin/19.6.0 (x86_64)".toList,
       "\nConnection: keep-alive".toList,
       "\nProxy-Connection: keep-alive".toList,
       "\n".toList, "\n".toList] := by
  set_option maxRecDepth 100000 in decide

/-! ## The handshake -/

/-- With writes that take every byte offered, each relay loop delivers what it
read. -/
theorem relay_read_full_writes (chunks : List Str) (st : RelayState) :
    (relay_read (chunks.map (fun c => (ReadOutcome.data c, WriteOutcome.wrote c.length))) st)
      = ⟨st.received ++ chunks.flatten, st.delivered ++ chunks.flatten⟩ := by
  induction chunks generalizing st with
  | nil => simp [relay_read]
  | cons c cs ih => simp [relay_read, ih]

/-- Claim C8: a short write loses bytes.  The client sends `ab` then `c`, each
`async_write_some` takes one byte: `relay_read` has read `abc` and delivered
`ac`, the byte `b` being dropped, and `relay_write` does the same in the other
direction. -/
theorem relay_short_write_drops :
    (∀ x ∈ [(ReadOutcome.data "ab".toList, WriteOutcome.wrote 1),
            (ReadOutcome.data "c".toList, WriteOutcome.wrote 1)], valid_iteration x) ∧
    relay_read [(ReadOutcome.data "ab".toList, WriteOutcome.wrote 1),
                (ReadOutcome.data "c".toList, WriteOutcome.wrote 1)] ⟨[], []⟩
      = ⟨"abc".toList, "ac".toList⟩ ∧
    relay_write [(ReadOutcome.data "ab".toList, WriteOutcome.wrote 1),
                 (ReadOutcome.data "c".toList, WriteOutcome.wrote 1)] ⟨[], []⟩
      = ⟨"abc".toList, "ac".toList⟩ := by
  decide

end HttpTunnel
